import Mathlib

/-!
Verification of the best-fit IP range allocator (`allocator.py`) of the
`ipam2` repository.

Addresses are modelled as unbounded integers (`Int`), exactly as Python
manipulates them: Python `int` never overflows, `//` is floor division,
`>>` is an arithmetic (floor) shift, and `&` with a mask below `2^32`
depends only on the low 32 bits of its left argument.  A CIDR is a pair
`(a, p)` of an address integer and a prefix length; `ipaddress.IPv4Network
(cidr, strict=False)` floors the address to the prefix boundary, which is
what `cidrRange` computes.  The allocator state (`IPAllocator`) carries the
parent range and the list of used ranges, mirroring the Python class.
-/

namespace Ipam

/-- Python `x & m` for a mask `m < 2^32`: only the low 32 bits of `x`
matter (this is exact for negative `x` as well, since Python uses
two's complement of unbounded width). -/
def pyand (x : Int) (m : Nat) : Int :=
  (((x % (2 ^ 32 : Int)).toNat &&& m : Nat) : Int)

/-- Python `x >> s` on ints: arithmetic shift, i.e. floor division
by `2 ^ s`. -/
def pyshr (x : Int) (s : Nat) : Int :=
  Int.fdiv x (2 ^ s)

/-- `(0xFFFFFFFF << (32 - prefix_length)) & 0xFFFFFFFF` — the netmask used
both by `ipaddress` when parsing a CIDR and inline in `find_best_fit`. -/
def netmask (p : Nat) : Nat :=
  (0xFFFFFFFF <<< (32 - p)) &&& 0xFFFFFFFF

/-- `_network_range(cidr)`: the `(start, end)` integer range of a CIDR
`a/p`.  `IPv4Network(cidr, strict=False)` masks the address with the
netmask; the broadcast address is the network address plus
`2^(32-p) - 1` (host bits all ones). -/
def cidrRange (a : Int) (p : Nat) : Int × Int :=
  let lo := pyand a (netmask p)
  (lo, lo + 2 ^ (32 - p) - 1)

/-- Python tuple comparison `x < y` (lexicographic). -/
def tupLt (x y : Int × Int) : Bool :=
  x.1 < y.1 || (x.1 == y.1 && x.2 < y.2)

/-- `bisect.insort(self.used_ranges, (start, end))`: insert into a sorted
list, after any equal elements (for identical tuples, inserting before or
after equal elements yields the same list). -/
def insort (x : Int × Int) : List (Int × Int) → List (Int × Int)
  | [] => [x]
  | y :: ys => if tupLt x y then x :: y :: ys else y :: insort x ys

/-- Python `sorted` on a list of tuples: since the lexicographic order is
total and equal keys are identical pairs, any correct sort produces the
same list; we use insertion sort. -/
def pysort (l : List (Int × Int)) : List (Int × Int) :=
  l.foldr insort []

/-- The loop body of `_merge_ranges`: `cur` is `merged[-1]`, the interval
currently being extended. -/
def mergeAux (cur : Int × Int) : List (Int × Int) → List (Int × Int)
  | [] => [cur]
  | (s, e) :: rest =>
    if cur.2 + 1 ≥ s then mergeAux (cur.1, max cur.2 e) rest
    else cur :: mergeAux (s, e) rest

/-- `_merge_ranges`: sort, then merge overlapping or adjacent ranges in a
single pass. -/
def mergeRanges (l : List (Int × Int)) : List (Int × Int) :=
  match pysort l with
  | [] => []
  | x :: xs => mergeAux x xs

/-- The allocator state: parent range (computed once in `__init__`) and
the used-range list. -/
structure IPAllocator where
  parentStart : Int
  parentEnd : Int
  used : List (Int × Int)
  deriving Repr, DecidableEq

/-- `IPAllocator(parent_cidr)` for parent CIDR `a/p`. -/
def IPAllocator.init (a : Int) (p : Nat) : IPAllocator :=
  let r := cidrRange a p
  ⟨r.1, r.2, []⟩

/-- `add_used_range(cidr)` for CIDR `a/p`. -/
def IPAllocator.addUsedRange (al : IPAllocator) (a : Int) (p : Nat) :
    IPAllocator :=
  { al with used := mergeRanges (insort (cidrRange a p) al.used) }

/-- `is_available(cidr)` for CIDR `a/p`. -/
def IPAllocator.isAvailable (al : IPAllocator) (a : Int) (p : Nat) : Bool :=
  let r := cidrRange a p
  al.used.all fun u => r.2 < u.1 || r.1 > u.2

/-- `required_size = 2 ** (32 - prefix_length)` (for `prefix_length ≤ 32`,
the only values reaching the allocator). -/
def requiredSize (p : Nat) : Int := 2 ^ (32 - p)

/-- A qualifying gap entry `(gap_start, gap_end, waste)`, appended only
when `gap_end - gap_start + 1 >= required_size`. -/
def qualGap (req gs ge : Int) : List (Int × Int × Int) :=
  if ge - gs + 1 ≥ req then [(gs, ge, |ge - gs + 1 - req|)] else []

/-- The `for i in range(len(self.used_ranges) - 1)` loop: gaps between
consecutive used ranges. -/
def betweenGaps (req : Int) : List (Int × Int) → List (Int × Int × Int)
  | (_, e1) :: (s2, e2) :: rest =>
    qualGap req (e1 + 1) (s2 - 1) ++ betweenGaps req ((s2, e2) :: rest)
  | _ => []

/-- Last element of the nonempty list `x :: l` (`self.used_ranges[-1]`). -/
def lastOf (x : Int × Int) : List (Int × Int) → Int × Int
  | [] => x
  | y :: ys => lastOf y ys

/-- The candidate-gap list of `find_best_fit`, in scan order: the whole
parent when no range is used; otherwise the gap before the first used
range, the gaps between consecutive used ranges, and the gap after the
last used range. -/
def gapsFor (ps pe req : Int) : List (Int × Int) → List (Int × Int × Int)
  | [] => qualGap req ps pe
  | (f, fe) :: rest =>
    (if f > ps + req - 1 then qualGap req ps (min pe (f - 1)) else [])
      ++ betweenGaps req ((f, fe) :: rest)
      ++ (let la := lastOf (f, fe) rest
          if la.2 < pe - req + 1 then qualGap req (la.2 + 1) pe else [])

/-- `min(gaps, key=lambda x: x[2])`: the first element attaining the
minimal waste. -/
def minByWaste (g : Int × Int × Int) : List (Int × Int × Int) →
    Int × Int × Int
  | [] => g
  | h :: t => if h.2.2 < g.2.2 then minByWaste h t else minByWaste g t

/-- Lines 129–155 of `find_best_fit`: center the allocation in the chosen
gap, align it to the network boundary, snap it into the gap, and validate.
`a0` is `gap_center & mask`; `a1` the value of `alloc_start` after the
`alloc_start < gap_start` snap; `a2` its value after the
`alloc_end > gap_end` snap; the final validation returns `none` on
failure. -/
def allocInGap (p : Nat) (gapStart gapEnd : Int) : Option Int :=
  let req := requiredSize p
  let gapSize := gapEnd - gapStart + 1
  let mask := netmask p
  let gapCenter := gapStart + Int.fdiv gapSize 2
  let a0 := pyand gapCenter mask
  let a1 :=
    if a0 < gapStart then (pyshr gapStart (32 - p) + 1) * 2 ^ (32 - p)
    else a0
  let a2 :=
    if a1 + req - 1 > gapEnd then
      pyshr (gapEnd - req + 1) (32 - p) * 2 ^ (32 - p)
    else a1
  if a2 < gapStart ∨ a2 + req - 1 > gapEnd then none else some a2

/-- `find_best_fit(prefix_length)`: returns the allocated CIDR start (the
result CIDR is `allocStart/p`) when successful, together with the
updated allocator (a success records the allocation via
`add_used_range`). -/
def IPAllocator.findBestFit (al : IPAllocator) (p : Nat) :
    Option Int × IPAllocator :=
  match gapsFor al.parentStart al.parentEnd (requiredSize p) al.used with
  | [] => (none, al)
  | g :: gs =>
    match allocInGap p (minByWaste g gs).1 (minByWaste g gs).2.1 with
    | none => (none, al)
    | some a => (some a, al.addUsedRange a p)

/-! ### Basic facts about `find_best_fit` results and state changes -/

/-- Unfolding of `findBestFit`: three facts used throughout.  When the
candidate-gap list is empty the result is absent; an absent result leaves
the allocator unchanged; a successful result `a` changes the allocator
exactly by `add_used_range` on the returned CIDR `a/p`. -/
theorem findBestFit_cases (al : IPAllocator) (p : Nat) :
    (gapsFor al.parentStart al.parentEnd (requiredSize p) al.used = [] →
      (al.findBestFit p).1 = none) ∧
    ((al.findBestFit p).1 = none → (al.findBestFit p).2 = al) ∧
    (∀ a : Int, (al.findBestFit p).1 = some a →
      (al.findBestFit p).2 = al.addUsedRange a p) := by
  unfold IPAllocator.findBestFit
  cases h : gapsFor al.parentStart al.parentEnd (requiredSize p) al.used with
  | nil => simp
  | cons g gs =>
    cases ha : allocInGap p (minByWaste g gs).1 (minByWaste g gs).2.1 with
    | none => refine ⟨fun hc => by simp_all, fun _ => by simp_all, fun a hc => ?_⟩
              simp_all
    | some b => refine ⟨fun hc => by simp_all, fun hc => by simp_all,
                  fun a hc => ?_⟩
                simp only [ha] at hc ⊢
                simp at hc
                subst hc
                rfl

/-- Complement of `findBestFit_cases`: when the candidate list is nonempty
but the centering/snapping validation on the chosen gap fails, the result
is absent and the allocator is unchanged. -/
theorem findBestFit_validation_failure (al : IPAllocator) (p : Nat)
    (g : Int × Int × Int) (gs : List (Int × Int × Int))
    (hg : gapsFor al.parentStart al.parentEnd (requiredSize p) al.used = g :: gs)
    (ha : allocInGap p (minByWaste g gs).1 (minByWaste g gs).2.1 = none) :
    al.findBestFit p = (none, al) := by
  unfold IPAllocator.findBestFit
  rw [hg]
  simp [ha]

/-! ### Concrete scenario claims (parent `10.0.0.0/16` is address
`167772160` prefix 16; its range is `[167772160, 167837695]`) -/

/-- C3 (counterexample): against parent `10.0.0.0/16`, the first
`find_best_fit(24)` allocates `10.0.128.0/24` = `[167804928, 167805183]`.
The two remaining gaps are the before-gap `[167772160, 167804927]`
(size 32768) and the after-gap `[167805184, 167837695]` (size 32512), so
the before-gap is strictly larger.  The second `find_best_fit(24)`
returns `10.0.192.0/24` (start `167821312`), whose range does NOT lie in
the larger gap — refuting the claim that the second allocation lands in
the larger of the two remaining gaps. -/
theorem C3_counterexample :
    ((IPAllocator.init 167772160 16).findBestFit 24).1 = some 167804928 ∧
    (((IPAllocator.init 167772160 16).findBestFit 24).2.findBestFit 24).1 =
      some 167821312 ∧
    gapsFor 167772160 167837695 256
        ((IPAllocator.init 167772160 16).findBestFit 24).2.used =
      [(167772160, 167804927, 32512), (167805184, 167837695, 32256)] ∧
    (167804927 - 167772160 + 1 : Int) > 167837695 - 167805184 + 1 ∧
    ¬ ((167772160 : Int) ≤ 167821312 ∧
        (167821312 : Int) + 256 - 1 ≤ 167804927) := by
  decide

/-- C3 (amended): against parent `10.0.0.0/16`, after one successful
`find_best_fit(24)` on an initially empty allocator, a second
`find_best_fit(24)` succeeds, returns a `/24` that lies in the gap with
minimum waste — the SMALLER of the two remaining gaps (here the free
stretch after the first allocation) — and does not overlap the first
allocation. -/
theorem C3_amended_theorem :
    ((IPAllocator.init 167772160 16).findBestFit 24).1 = some 167804928 ∧
    (((IPAllocator.init 167772160 16).findBestFit 24).2.findBestFit 24).1 =
      some 167821312 ∧
    gapsFor 167772160 167837695 256
        ((IPAllocator.init 167772160 16).findBestFit 24).2.used =
      [(167772160, 167804927, 32512), (167805184, 167837695, 32256)] ∧
    (167837695 - 167805184 + 1 : Int) < 167804927 - 167772160 + 1 ∧
    (32256 : Int) < 32512 ∧
    (167805184 : Int) ≤ 167821312 ∧
    (167821312 : Int) + 256 - 1 ≤ 167837695 ∧
    (167804928 : Int) + 256 - 1 < 167821312 := by
  decide

/-- C4 (counterexample): a `/17` request against an empty `/16` parent
does NOT fail: the required size `2^15` does not exceed the parent size
`2^16`, a `/17` fits, and `find_best_fit(17)` returns `10.0.128.0/17` —
refuting the claim that it returns absence. -/
theorem C4_counterexample :
    ((IPAllocator.init 167772160 16).findBestFit 17).1 = some 167804928 ∧
    ((IPAllocator.init 167772160 16).findBestFit 17).1 ≠ none ∧
    requiredSize 17 ≤ 167837695 - 167772160 + 1 := by
  decide

/-- C4 (amended): for an allocator with a `/16` parent network and an
empty used-range set, `find_best_fit(15)` fails and returns absence (no
CIDR), because the required size `2^17` exceeds the parent size `2^16`
(while `find_best_fit(17)` succeeds, a `/17` fitting inside a `/16`). -/
theorem C4_amended_theorem :
    ((IPAllocator.init 167772160 16).findBestFit 15).1 = none ∧
    requiredSize 15 > 167837695 - 167772160 + 1 ∧
    ((IPAllocator.init 167772160 16).findBestFit 15).2 =
      IPAllocator.init 167772160 16 := by
  decide

/-- C6: a reachable allocator state in which a qualifying gap exists but
`find_best_fit` returns absence because the post-snapping validation
fails.  Parent `10.0.0.0/24`; used ranges `10.0.0.0/27`, `10.0.0.96/27`
and `10.0.0.128/25` (added through the public interface) leave the single
qualifying gap `[167772192, 167772255]` for a `/26` request: its size 64
equals the required size exactly, but its start (`10.0.0.32`) is not
64-aligned, and `find_best_fit(26)` returns absence. -/
theorem C6_misaligned_gap_failure :
    gapsFor 167772160 167772415 (requiredSize 26)
        ((((IPAllocator.init 167772160 24).addUsedRange 167772160 27
            ).addUsedRange 167772256 27).addUsedRange 167772288 25).used =
      [(167772192, 167772255, 0)] ∧
    (167772255 - 167772192 + 1 : Int) = requiredSize 26 ∧
    (167772192 : Int) % 2 ^ (32 - 26) ≠ 0 ∧
    (((((IPAllocator.init 167772160 24).addUsedRange 167772160 27
        ).addUsedRange 167772256 27).addUsedRange 167772288 25
        ).findBestFit 26).1 = none := by
  decide

/-! ### Alignment of allocations (mask arithmetic) -/

/-- The netmask for every prefix length in `0..32` is the 32-bit value
with the low `s` bits clear, `s` the host-bit count. -/
theorem netmask_val : ∀ s : Fin 33,
    ((4294967295 <<< (s : Nat)) &&& 4294967295 : Nat) = 2 ^ 32 - 2 ^ (s : Nat) := by
  decide

theorem netmask_eq (p : Nat) : netmask p = 2 ^ 32 - 2 ^ (32 - p) :=
  netmask_val ⟨32 - p, by omega⟩

/-- Anding with a mask whose low `s` bits are clear yields a multiple of
`2 ^ s`. -/
theorem land_high_mask_dvd (x s : Nat) (hs : s ≤ 32) :
    2 ^ s ∣ (x &&& (2 ^ 32 - 2 ^ s)) := by
  have hsum : s + (32 - s) = 32 := by omega
  have hmask : (2 ^ 32 - 2 ^ s) = 2 ^ s * (2 ^ (32 - s) - 1) := by
    rw [Nat.mul_sub, mul_one, ← pow_add, hsum]
  apply Nat.dvd_of_mod_eq_zero
  have h1 : (x &&& (2 ^ 32 - 2 ^ s)) % 2 ^ s
      = (x &&& (2 ^ 32 - 2 ^ s)) &&& (2 ^ s - 1) := by
    rw [Nat.and_pow_two_sub_one_eq_mod]
  rw [h1, Nat.and_assoc, Nat.and_pow_two_sub_one_eq_mod, hmask,
    Nat.mul_mod_right, Nat.and_zero]

/-- Bits below `s` of a multiple of `2 ^ s` are clear. -/
theorem testBit_eq_false_of_dvd (x s i : Nat) (hd : 2 ^ s ∣ x) (hi : i < s) :
    x.testBit i = false := by
  obtain ⟨k, hk⟩ := hd
  subst hk
  rw [Nat.testBit_to_div_mod]
  have h2 : (2 : Nat) ^ s = 2 ^ i * 2 ^ (s - i) := by
    rw [← pow_add]; congr 1; omega
  rw [h2, Nat.mul_assoc,
    Nat.mul_div_cancel_left _ (Nat.pos_pow_of_pos i (by norm_num))]
  have h3 : (2 : Nat) ∣ 2 ^ (s - i) * k :=
    Dvd.dvd.mul_right (dvd_pow_self 2 (by omega)) k
  obtain ⟨m, hm⟩ := h3
  rw [hm, Nat.mul_mod_right]
  simp

/-- A 32-bit multiple of `2 ^ s` is fixed by the netmask. -/
theorem land_high_mask_of_aligned (x s : Nat) (hs : s ≤ 32) (hx : x < 2 ^ 32)
    (hd : 2 ^ s ∣ x) : x &&& (2 ^ 32 - 2 ^ s) = x := by
  have hsum2 : 32 - s + s = 32 := by omega
  have hmask : (2 ^ 32 - 2 ^ s) = (2 ^ (32 - s) - 1) <<< s := by
    rw [Nat.shiftLeft_eq, Nat.sub_one_mul, ← pow_add, hsum2]
  apply Nat.eq_of_testBit_eq
  intro i
  rw [Nat.testBit_and]
  by_cases hi : i < s
  · rw [testBit_eq_false_of_dvd x s i hd hi, Bool.false_and]
  · by_cases hi32 : i < 32
    · have ht : (2 ^ 32 - 2 ^ s).testBit i = true := by
        rw [hmask, Nat.testBit_shiftLeft, Nat.testBit_two_pow_sub_one]
        simp only [ge_iff_le, Nat.not_lt] at hi ⊢
        have h4 : i - s < 32 - s := by omega
        simp [hi, h4]
      rw [ht, Bool.and_true]
    · have hxf : x.testBit i = false :=
        Nat.testBit_eq_false_of_lt
          (lt_of_lt_of_le hx (Nat.pow_le_pow_right (by norm_num) (by omega)))
      rw [hxf, Bool.false_and]

/-- `gap_center & mask` is always a multiple of `2 ^ (32 - p)`. -/
theorem pyand_netmask_dvd (x : Int) (p : Nat) :
    (2 ^ (32 - p) : Int) ∣ pyand x (netmask p) := by
  unfold pyand
  rw [netmask_eq]
  have h := land_high_mask_dvd ((x % (2 ^ 32 : Int)).toNat) (32 - p) (by omega)
  exact_mod_cast Int.natCast_dvd_natCast.mpr h

/-- `pyand` with a mask below `2 ^ 32` acts as the identity on aligned
32-bit values. -/
theorem pyand_netmask_of_aligned (a : Int) (p : Nat) (h0 : 0 ≤ a)
    (h32 : a < 2 ^ 32) (hd : (2 ^ (32 - p) : Int) ∣ a) :
    pyand a (netmask p) = a := by
  unfold pyand
  rw [netmask_eq]
  have hm : a % (2 ^ 32 : Int) = a := Int.emod_eq_of_lt h0 h32
  rw [hm]
  have htn : ((a.toNat : Int)) = a := Int.toNat_of_nonneg h0
  have hxlt : a.toNat < 2 ^ 32 := by omega
  have hdn : 2 ^ (32 - p) ∣ a.toNat := by
    rw [← Int.natCast_dvd_natCast]
    have hcast : ((2 ^ (32 - p) : Nat) : Int) = (2 ^ (32 - p) : Int) := by
      push_cast; ring
    rw [hcast, htn]
    exact hd
  rw [land_high_mask_of_aligned a.toNat (32 - p) (by omega) hxlt hdn]
  exact htn

/-- The final `alloc_start < gap_start or alloc_end > gap_end` validation:
a surviving value is the snapped start itself. -/
theorem ite_validate_eq {x gs ge req a : Int}
    (h : (if x < gs ∨ x + req - 1 > ge then none else some x) = some a) :
    a = x := by
  split_ifs at h with hc
  all_goals first
    | exact Option.noConfusion h
    | (injection h with h2; omega)

/-- A value surviving the final validation lies inside the gap. -/
theorem ite_validate_bounds {x gs ge req a : Int}
    (h : (if x < gs ∨ x + req - 1 > ge then none else some x) = some a) :
    gs ≤ a ∧ a + req - 1 ≤ ge := by
  split_ifs at h with hc
  all_goals first
    | exact Option.noConfusion h
    | (injection h with h2; omega)

/-- Every successful snap result is a multiple of `2 ^ (32 - p)`. -/
theorem allocInGap_dvd (p : Nat) (gs ge a : Int)
    (h : allocInGap p gs ge = some a) : (2 ^ (32 - p) : Int) ∣ a := by
  simp only [allocInGap] at h
  rw [ite_validate_eq h]
  split_ifs
  all_goals first
    | exact dvd_mul_left _ _
    | exact pyand_netmask_dvd _ p

/-- Every successful snap result lies inside the gap it was computed
for (the final validation of `find_best_fit`). -/
theorem allocInGap_bounds (p : Nat) (gs ge a : Int)
    (h : allocInGap p gs ge = some a) :
    gs ≤ a ∧ a + requiredSize p - 1 ≤ ge := by
  simp only [allocInGap] at h
  exact ite_validate_bounds h

/-- Characterisation of a successful `find_best_fit`: a nonempty candidate
list whose minimum-waste gap admits the returned allocation. -/
theorem findBestFit_some_spec (al : IPAllocator) (p : Nat) (a : Int)
    (h : (al.findBestFit p).1 = some a) :
    ∃ g gs,
      gapsFor al.parentStart al.parentEnd (requiredSize p) al.used = g :: gs ∧
      allocInGap p (minByWaste g gs).1 (minByWaste g gs).2.1 = some a := by
  unfold IPAllocator.findBestFit at h
  split at h
  next => simp at h
  next g gs hgap =>
    split at h
    next => simp at h
    next b ha =>
      simp only [Option.some.injEq] at h
      exact ⟨g, gs, hgap, by rw [ha, h]⟩

/-- C9: every CIDR returned by a successful `find_best_fit(prefix_length)`
has a start address that is an exact multiple of `2^(32-prefix_length)`
(network-aligned), for every allocator state and every prefix length in
`0..32`. -/
theorem C9_alignment (al : IPAllocator) (p : Nat) (a : Int) (hp : p ≤ 32)
    (h : (al.findBestFit p).1 = some a) : (2 ^ (32 - p) : Int) ∣ a := by
  obtain ⟨g, gs, hg, ha⟩ := findBestFit_some_spec al p a h
  exact allocInGap_dvd p _ _ a ha

/-- Witness for C9: the first `/24` allocated out of an empty
`10.0.0.0/16` allocator starts at `167804928 = 10.0.128.0`, a multiple
of `2^8 = 256`. -/
theorem C9_witness : (2 ^ (32 - 24) : Int) ∣ 167804928 :=
  C9_alignment (IPAllocator.init 167772160 16) 24 167804928 (by omega)
    (by decide)

/-! ### Structure of the candidate-gap list -/

/-- Membership in a `qualGap` singleton forces the gap bounds and the
qualification `gap_end - gap_start + 1 >= required_size`. -/
theorem qualGap_mem {req gs ge : Int} {g : Int × Int × Int}
    (h : g ∈ qualGap req gs ge) :
    g = (gs, ge, |ge - gs + 1 - req|) ∧ req ≤ ge - gs + 1 := by
  unfold qualGap at h
  split_ifs at h with hq
  · rw [List.mem_singleton] at h
    exact ⟨h, hq⟩
  · simp at h

/-- `min(gaps, key=...)` returns an element of the list. -/
theorem minByWaste_mem (g : Int × Int × Int) (l : List (Int × Int × Int)) :
    minByWaste g l ∈ g :: l := by
  induction l generalizing g with
  | nil => simp [minByWaste]
  | cons h t ih =>
    unfold minByWaste
    split_ifs with hc
    · have := ih h
      simp at this ⊢
      tauto
    · have := ih g
      simp at this ⊢
      tauto

/-- `self.used_ranges[-1]` is a member of the (nonempty) used-range
list. -/
theorem lastOf_mem : ∀ (l : List (Int × Int)) (x : Int × Int),
    lastOf x l ∈ x :: l := by
  intro l
  induction l with
  | nil => intro x; simp [lastOf]
  | cons y t ih =>
    intro x
    rw [show lastOf x (y :: t) = lastOf y t from rfl]
    have h := ih y
    simp at h ⊢
    tauto

/-- Between-gaps lie inside the parent range whenever every used range
does. -/
theorem betweenGaps_in_parent (req ps pe : Int) :
    ∀ l : List (Int × Int),
      (∀ u ∈ l, ps ≤ u.1 ∧ u.1 ≤ u.2 ∧ u.2 ≤ pe) →
      ∀ g ∈ betweenGaps req l, ps ≤ g.1 ∧ g.2.1 ≤ pe := by
  intro l
  induction l with
  | nil => intro _ g hg; simp [betweenGaps] at hg
  | cons x l2 ih =>
    intro hu g hg
    cases l2 with
    | nil => simp [betweenGaps] at hg
    | cons y t =>
      rw [show betweenGaps req (x :: y :: t)
            = qualGap req (x.2 + 1) (y.1 - 1) ++ betweenGaps req (y :: t)
          from rfl, List.mem_append] at hg
      rcases hg with hg | hg
      · obtain ⟨hge, _⟩ := qualGap_mem hg
        have hx := hu x (by simp)
        have hy := hu y (by simp)
        rw [hge]
        refine ⟨?_, ?_⟩
        · show ps ≤ x.2 + 1
          omega
        · show y.1 - 1 ≤ pe
          omega
      · exact ih (fun u hu2 => hu u (by simp [hu2])) g hg

/-- Every candidate gap lies inside the parent range whenever every used
range does ("within" meaning `parent_start <= start <= end <=
parent_end`). -/
theorem gapsFor_in_parent (ps pe req : Int) (used : List (Int × Int))
    (hu : ∀ u ∈ used, ps ≤ u.1 ∧ u.1 ≤ u.2 ∧ u.2 ≤ pe) :
    ∀ g ∈ gapsFor ps pe req used, ps ≤ g.1 ∧ g.2.1 ≤ pe := by
  intro g hg
  cases used with
  | nil =>
    simp only [gapsFor] at hg
    obtain ⟨hge, _⟩ := qualGap_mem hg
    rw [hge]; exact ⟨le_refl ps, le_refl pe⟩
  | cons f rest =>
    obtain ⟨f1, f2⟩ := f
    simp only [gapsFor, List.mem_append] at hg
    rcases hg with (hg | hg) | hg
    · split_ifs at hg with hc
      · obtain ⟨hge, _⟩ := qualGap_mem hg
        rw [hge]
        refine ⟨le_refl ps, ?_⟩
        show min pe (f1 - 1) ≤ pe
        exact min_le_left _ _
      · simp at hg
    · exact betweenGaps_in_parent req ps pe ((f1, f2) :: rest) hu g hg
    · split_ifs at hg with hc
      · obtain ⟨hge, _⟩ := qualGap_mem hg
        have hl := lastOf_mem rest (f1, f2)
        have h5 := hu _ hl
        rw [hge]
        refine ⟨?_, le_refl pe⟩
        show ps ≤ (lastOf (f1, f2) rest).2 + 1
        omega
      · simp at hg

/-- A qualifying gap stores waste `gap_size - required_size`, which is
nonnegative. -/
theorem qualGap_waste {req gs ge : Int} {g : Int × Int × Int}
    (h : g ∈ qualGap req gs ge) :
    req ≤ g.2.1 - g.1 + 1 ∧ g.2.2 = g.2.1 - g.1 + 1 - req := by
  obtain ⟨hge, hq⟩ := qualGap_mem h
  subst hge
  constructor
  · show req ≤ ge - gs + 1
    exact hq
  · show |ge - gs + 1 - req| = ge - gs + 1 - req
    exact abs_of_nonneg (by omega)

/-- Waste form for between-gaps. -/
theorem betweenGaps_waste (req : Int) :
    ∀ l : List (Int × Int), ∀ g ∈ betweenGaps req l,
      req ≤ g.2.1 - g.1 + 1 ∧ g.2.2 = g.2.1 - g.1 + 1 - req := by
  intro l
  induction l with
  | nil => intro g hg; simp [betweenGaps] at hg
  | cons x l2 ih =>
    intro g hg
    cases l2 with
    | nil => simp [betweenGaps] at hg
    | cons y t =>
      rw [show betweenGaps req (x :: y :: t)
            = qualGap req (x.2 + 1) (y.1 - 1) ++ betweenGaps req (y :: t)
          from rfl, List.mem_append] at hg
      rcases hg with hg | hg
      · exact qualGap_waste hg
      · exact ih g hg

/-- Every candidate gap qualifies (`size >= required_size`) and its
stored waste is exactly `gap_size - required_size`. -/
theorem gapsFor_waste (ps pe req : Int) (used : List (Int × Int)) :
    ∀ g ∈ gapsFor ps pe req used,
      req ≤ g.2.1 - g.1 + 1 ∧ g.2.2 = g.2.1 - g.1 + 1 - req := by
  intro g hg
  cases used with
  | nil => simp only [gapsFor] at hg; exact qualGap_waste hg
  | cons f rest =>
    obtain ⟨f1, f2⟩ := f
    simp only [gapsFor, List.mem_append] at hg
    rcases hg with (hg | hg) | hg
    · split_ifs at hg with hc
      · exact qualGap_waste hg
      · simp at hg
    · exact betweenGaps_waste req ((f1, f2) :: rest) g hg
    · split_ifs at hg with hc
      · exact qualGap_waste hg
      · simp at hg

/-- `min(gaps, key=waste)` attains the minimum waste, and is the FIRST
element of the list attaining it: the list splits as
`l1 ++ min :: l2` with every element of `l1` of strictly larger waste. -/
theorem minByWaste_spec (g : Int × Int × Int) (l : List (Int × Int × Int)) :
    (∀ x ∈ g :: l, (minByWaste g l).2.2 ≤ x.2.2) ∧
    ∃ l1 l2, g :: l = l1 ++ minByWaste g l :: l2 ∧
      ∀ x ∈ l1, (minByWaste g l).2.2 < x.2.2 := by
  induction l generalizing g with
  | nil =>
    refine ⟨?_, [], [], rfl, by simp⟩
    intro x hx
    simp [minByWaste] at hx ⊢
    rw [hx]
  | cons y t ih =>
    rw [show minByWaste g (y :: t)
          = if y.2.2 < g.2.2 then minByWaste y t else minByWaste g t
        from rfl]
    split_ifs with hc
    · obtain ⟨hmin, l1, l2, heq, hlt⟩ := ih y
      have hMy : (minByWaste y t).2.2 ≤ y.2.2 := hmin y (by simp)
      refine ⟨?_, g :: l1, l2, ?_, ?_⟩
      · intro x hx
        rcases List.mem_cons.mp hx with rfl | hx
        · omega
        · exact hmin x hx
      · rw [List.cons_append, ← heq]
      · intro x hx
        rcases List.mem_cons.mp hx with rfl | hx
        · omega
        · exact hlt x hx
    · obtain ⟨hmin, l1, l2, heq, hlt⟩ := ih g
      push_neg at hc
      have hMg : (minByWaste g t).2.2 ≤ g.2.2 := hmin g (by simp)
      constructor
      · intro x hx
        rcases List.mem_cons.mp hx with rfl | hx
        · exact hMg
        · rcases List.mem_cons.mp hx with rfl | hx
          · omega
          · exact hmin x (by simp [hx])
      · cases l1 with
        | nil =>
          simp only [List.nil_append, List.cons.injEq] at heq
          refine ⟨[], y :: t, ?_, by simp⟩
          rw [List.nil_append, ← heq.1]
        | cons z l1t =>
          rw [List.cons_append] at heq
          injection heq with h1 h2
          have hzg : (minByWaste g t).2.2 < g.2.2 := by
            have h3 := hlt z (by simp)
            rw [← h1] at h3
            exact h3
          refine ⟨g :: y :: l1t, l2, ?_, ?_⟩
          · rw [List.cons_append, List.cons_append, ← h2]
          · intro x hx
            rcases List.mem_cons.mp hx with rfl | hx
            · exact hzg
            · rcases List.mem_cons.mp hx with rfl | hx
              · omega
              · exact hlt x (by simp [hx])

/-- C5: `find_best_fit(prefix_length)` scores every candidate gap (a free
stretch of size `end - start + 1 >= required_size = 2^(32-prefix_length)`)
by `waste = gap_size - required_size`, nonnegative for every candidate;
it selects the gap with minimum waste, breaking ties by the gap
encountered first in left-to-right scan order (before-first,
between-pairs, after-last), and a successful allocation lies inside that
chosen gap. -/
theorem C5_best_fit_min_waste (al : IPAllocator) (p : Nat) :
    (∀ g ∈ gapsFor al.parentStart al.parentEnd (requiredSize p) al.used,
        requiredSize p ≤ g.2.1 - g.1 + 1 ∧
        g.2.2 = g.2.1 - g.1 + 1 - requiredSize p ∧ 0 ≤ g.2.2) ∧
    (∀ g gs,
      gapsFor al.parentStart al.parentEnd (requiredSize p) al.used = g :: gs →
      (minByWaste g gs ∈ g :: gs ∧
        (∀ x ∈ g :: gs, (minByWaste g gs).2.2 ≤ x.2.2) ∧
        (∃ l1 l2, g :: gs = l1 ++ minByWaste g gs :: l2 ∧
          ∀ x ∈ l1, (minByWaste g gs).2.2 < x.2.2)) ∧
      ∀ a : Int, (al.findBestFit p).1 = some a →
        (minByWaste g gs).1 ≤ a ∧
        a + requiredSize p - 1 ≤ (minByWaste g gs).2.1) := by
  constructor
  · intro g hg
    have h1 := gapsFor_waste al.parentStart al.parentEnd
      (requiredSize p) al.used g hg
    exact ⟨h1.1, h1.2, by omega⟩
  · intro g gs hg
    obtain ⟨hmin, hfirst⟩ := minByWaste_spec g gs
    refine ⟨⟨minByWaste_mem g gs, hmin, hfirst⟩, ?_⟩
    intro a ha
    obtain ⟨g2, gs2, hg2, ha2⟩ := findBestFit_some_spec al p a ha
    rw [hg] at hg2
    injection hg2 with e1 e2
    rw [← e1, ← e2] at ha2
    exact allocInGap_bounds p _ _ a ha2

/-- Witness for C5 at a concrete input: after the first `/24` allocation
out of `10.0.0.0/16`, the candidate list for the second `/24` request is
`[(before-gap, waste 32512), (after-gap, waste 32256)]`; the theorem
places the second allocation `167821312` inside the minimum-waste
(after) gap. -/
theorem C5_witness :
    (minByWaste (167772160, 167804927, 32512)
      [(167805184, 167837695, 32256)]).1 ≤ 167821312 ∧
    (167821312 : Int) + requiredSize 24 - 1 ≤
      (minByWaste (167772160, 167804927, 32512)
        [(167805184, 167837695, 32256)]).2.1 :=
  ((C5_best_fit_min_waste ((IPAllocator.init 167772160 16).findBestFit 24).2
      24).2 (167772160, 167804927, 32512) [(167805184, 167837695, 32256)]
    (by decide)).2 167821312 (by decide)

/-- C2: for every allocator whose used ranges each lie entirely within
the parent range (including the empty set), every CIDR returned by a
successful `find_best_fit(prefix_length)` denotes an integer range
`[a, a + 2^(32-prefix_length) - 1]` lying entirely within the parent
range. -/
theorem C2_containment (al : IPAllocator) (p : Nat) (a : Int)
    (hu : ∀ u ∈ al.used,
      al.parentStart ≤ u.1 ∧ u.1 ≤ u.2 ∧ u.2 ≤ al.parentEnd)
    (h : (al.findBestFit p).1 = some a) :
    al.parentStart ≤ a ∧ a + requiredSize p - 1 ≤ al.parentEnd := by
  obtain ⟨g, gs, hg, ha⟩ := findBestFit_some_spec al p a h
  have hb := allocInGap_bounds p _ _ a ha
  have hmem : minByWaste g gs ∈
      gapsFor al.parentStart al.parentEnd (requiredSize p) al.used := by
    rw [hg]; exact minByWaste_mem g gs
  have hpar := gapsFor_in_parent al.parentStart al.parentEnd
    (requiredSize p) al.used hu _ hmem
  exact ⟨le_trans hpar.1 hb.1, le_trans hb.2 hpar.2⟩

/-- Witness for C2: the first `/24` allocated out of an empty
`10.0.0.0/16` allocator is contained in the parent range. -/
theorem C2_witness :
    (167772160 : Int) ≤ 167804928 ∧
      (167804928 : Int) + requiredSize 24 - 1 ≤ 167837695 :=
  C2_containment (IPAllocator.init 167772160 16) 24 167804928
    (by intro u hu; simp [IPAllocator.init] at hu) (by decide)

/-! ### The merged-used-ranges invariant -/

/-- The used-range invariant: every range is proper (`start <= end`) and
consecutive ranges in list order neither overlap nor touch
(`end + 1 < next.start`), which also makes the list sorted by start. -/
def Merged (l : List (Int × Int)) : Prop :=
  (∀ r ∈ l, r.1 ≤ r.2) ∧ l.Pairwise (fun r s => r.2 + 1 < s.1)

/-- Lexicographic order on tuples as a proposition (Python `<=`). -/
def LexLe (x y : Int × Int) : Prop :=
  x.1 < y.1 ∨ (x.1 = y.1 ∧ x.2 ≤ y.2)

theorem lexLe_trans {x y z : Int × Int} (h1 : LexLe x y) (h2 : LexLe y z) :
    LexLe x z := by
  unfold LexLe at h1 h2 ⊢
  omega

theorem tupLt_lexLe {x y : Int × Int} (h : tupLt x y = true) : LexLe x y := by
  simp [tupLt] at h
  unfold LexLe
  omega

theorem not_tupLt_lexLe {x y : Int × Int} (h : ¬ tupLt x y = true) :
    LexLe y x := by
  simp [tupLt] at h
  unfold LexLe
  omega

/-- `bisect.insort` only permutes the new element into the list. -/
theorem insort_perm (x : Int × Int) :
    ∀ l : List (Int × Int), List.Perm (insort x l) (x :: l) := by
  intro l
  induction l with
  | nil => simp [insort]
  | cons y ys ih =>
    rw [show insort x (y :: ys)
          = if tupLt x y then x :: y :: ys else y :: insort x ys from rfl]
    split_ifs with hc
    · exact List.Perm.refl _
    · exact (ih.cons y).trans (List.Perm.swap x y ys)

theorem insort_mem {x r : Int × Int} {l : List (Int × Int)}
    (h : r ∈ insort x l) : r = x ∨ r ∈ l := by
  have := (insort_perm x l).mem_iff.mp h
  simpa using this

/-- `bisect.insort` keeps the list sorted. -/
theorem insort_sorted (x : Int × Int) :
    ∀ l : List (Int × Int), l.Pairwise LexLe →
      (insort x l).Pairwise LexLe := by
  intro l
  induction l with
  | nil => intro _; simp [insort, List.pairwise_singleton]
  | cons y ys ih =>
    intro h
    rw [List.pairwise_cons] at h
    rw [show insort x (y :: ys)
          = if tupLt x y then x :: y :: ys else y :: insort x ys from rfl]
    split_ifs with hc
    · refine List.pairwise_cons.mpr ⟨?_, List.pairwise_cons.mpr h⟩
      intro r hr
      rcases List.mem_cons.mp hr with rfl | hr
      · exact tupLt_lexLe hc
      · exact lexLe_trans (tupLt_lexLe hc) (h.1 r hr)
    · refine List.pairwise_cons.mpr ⟨?_, ih h.2⟩
      intro r hr
      rcases insort_mem hr with rfl | hr
      · exact not_tupLt_lexLe hc
      · exact h.1 r hr

/-- `sorted(...)` only permutes the list. -/
theorem pysort_perm : ∀ l : List (Int × Int), List.Perm (pysort l) l := by
  intro l
  induction l with
  | nil => simp [pysort]
  | cons x xs ih =>
    rw [show pysort (x :: xs) = insort x (pysort xs) from rfl]
    exact (insort_perm x (pysort xs)).trans (ih.cons x)

/-- `sorted(...)` sorts. -/
theorem pysort_sorted : ∀ l : List (Int × Int), (pysort l).Pairwise LexLe := by
  intro l
  induction l with
  | nil => simp [pysort]
  | cons x xs ih =>
    rw [show pysort (x :: xs) = insort x (pysort xs) from rfl]
    exact insort_sorted x (pysort xs) ih

/-- The merge pass establishes the invariant and never moves a start
below the current interval's start, for any start-sorted input of proper
ranges. -/
theorem mergeAux_spec :
    ∀ (l : List (Int × Int)) (cur : Int × Int), cur.1 ≤ cur.2 →
      (∀ r ∈ l, r.1 ≤ r.2) →
      List.Chain (fun a b : Int × Int => a.1 ≤ b.1) cur l →
      Merged (mergeAux cur l) ∧ ∀ r ∈ mergeAux cur l, cur.1 ≤ r.1 := by
  intro l
  induction l with
  | nil =>
    intro cur h1 _ _
    refine ⟨⟨?_, ?_⟩, ?_⟩ <;> simp [mergeAux]
    exact h1
  | cons se rest ih =>
    intro cur h1 h2 h3
    obtain ⟨s, e⟩ := se
    rw [List.chain_cons] at h3
    rw [show mergeAux cur ((s, e) :: rest)
          = if cur.2 + 1 ≥ s then mergeAux (cur.1, max cur.2 e) rest
            else cur :: mergeAux (s, e) rest from rfl]
    split_ifs with hc
    · have hch : List.Chain (fun a b : Int × Int => a.1 ≤ b.1)
          (cur.1, max cur.2 e) rest := by
        cases rest with
        | nil => exact List.Chain.nil
        | cons z t =>
          rw [List.chain_cons] at h3 ⊢
          refine ⟨?_, h3.2.2⟩
          show cur.1 ≤ z.1
          have hsz : s ≤ z.1 := h3.2.1
          omega
      have hcur : (cur.1, max cur.2 e).1 ≤ (cur.1, max cur.2 e).2 := by
        show cur.1 ≤ max cur.2 e
        omega
      have hrest : ∀ r ∈ rest, r.1 ≤ r.2 := fun r hr => h2 r (by simp [hr])
      exact ih (cur.1, max cur.2 e) hcur hrest hch
    · push_neg at hc
      have hse : (s, e).1 ≤ (s, e).2 := h2 (s, e) (by simp)
      have hrest : ∀ r ∈ rest, r.1 ≤ r.2 := fun r hr => h2 r (by simp [hr])
      obtain ⟨⟨hM1, hM2⟩, hS⟩ := ih (s, e) hse hrest h3.2
      refine ⟨⟨?_, ?_⟩, ?_⟩
      · intro r hr
        rcases List.mem_cons.mp hr with rfl | hr
        · exact h1
        · exact hM1 r hr
      · refine List.pairwise_cons.mpr ⟨?_, hM2⟩
        intro r hr
        have := hS r hr
        show cur.2 + 1 < r.1
        omega
      · intro r hr
        rcases List.mem_cons.mp hr with rfl | hr
        · exact le_refl _
        · have := hS r hr
          omega

/-- `_merge_ranges` establishes the invariant whenever every input range
is proper. -/
theorem mergeRanges_merged (l : List (Int × Int))
    (h : ∀ r ∈ l, r.1 ≤ r.2) : Merged (mergeRanges l) := by
  unfold mergeRanges
  cases hp : pysort l with
  | nil => exact ⟨by simp, List.Pairwise.nil⟩
  | cons x xs =>
    have hperm := pysort_perm l
    rw [hp] at hperm
    have hall : ∀ r ∈ x :: xs, r.1 ≤ r.2 := fun r hr =>
      h r (hperm.mem_iff.mp hr)
    have hsort := pysort_sorted l
    rw [hp] at hsort
    have hchain : List.Chain (fun a b : Int × Int => a.1 ≤ b.1) x xs := by
      have h6 : (x :: xs).Chain' (fun a b : Int × Int => a.1 ≤ b.1) := by
        apply List.Pairwise.chain'
        exact hsort.imp (fun hab => by unfold LexLe at hab; omega)
      exact h6
    exact (mergeAux_spec xs x (hall x (by simp))
      (fun r hr => hall r (by simp [hr])) hchain).1

/-- Parsing any CIDR yields a proper range. -/
theorem cidrRange_proper (a : Int) (p : Nat) :
    (cidrRange a p).1 ≤ (cidrRange a p).2 := by
  show pyand a (netmask p) ≤ pyand a (netmask p) + 2 ^ (32 - p) - 1
  have h : (0 : Int) < 2 ^ (32 - p) := pow_pos (by norm_num) _
  omega

/-- `add_used_range` establishes the invariant whenever every stored
range is proper (in particular on every reachable state). -/
theorem addUsedRange_merged (al : IPAllocator) (a : Int) (p : Nat)
    (h : ∀ r ∈ al.used, r.1 ≤ r.2) :
    Merged ((al.addUsedRange a p).used) := by
  apply mergeRanges_merged
  intro r hr
  rcases insort_mem hr with rfl | hr
  · exact cidrRange_proper a p
  · exact h r hr

/-- C7: after every call to `add_used_range` (on any allocator whose
used ranges are proper, as every reachable one is, and including the call
performed internally by a successful `find_best_fit`), the used-range
set is sorted by start and no two of its ranges overlap or are adjacent
(`end + 1 < next.start` for every pair in list order); in particular,
adding `10.0.0.0/24` and then `10.0.1.0/24` leaves the single merged
interval `10.0.0.0`–`10.0.1.255` = `[167772160, 167772671]`. -/
theorem C7_merge_invariant (al : IPAllocator) (a : Int) (p : Nat)
    (h : ∀ r ∈ al.used, r.1 ≤ r.2) :
    ((∀ r ∈ (al.addUsedRange a p).used, r.1 ≤ r.2) ∧
      ((al.addUsedRange a p).used).Pairwise (fun r s => r.2 + 1 < s.1) ∧
      ((al.addUsedRange a p).used).Pairwise (fun r s => r.1 < s.1)) ∧
    (((IPAllocator.init 167772160 16).addUsedRange 167772160 24
        ).addUsedRange 167772416 24).used = [(167772160, 167772671)] := by
  obtain ⟨h1, h2⟩ := addUsedRange_merged al a p h
  refine ⟨⟨h1, h2, ?_⟩, by decide⟩
  refine List.Pairwise.imp_of_mem ?_ h2
  intro r s hr _ hrel
  have := h1 r hr
  omega

/-- Witness for C7 at a concrete input: adding `10.0.0.0/24` to an empty
`10.0.0.0/16` allocator. -/
theorem C7_witness :
    ((∀ r ∈ ((IPAllocator.init 167772160 16).addUsedRange 167772160 24).used,
        r.1 ≤ r.2) ∧
      (((IPAllocator.init 167772160 16).addUsedRange 167772160 24).used
        ).Pairwise (fun r s => r.2 + 1 < s.1) ∧
      (((IPAllocator.init 167772160 16).addUsedRange 167772160 24).used
        ).Pairwise (fun r s => r.1 < s.1)) ∧
    (((IPAllocator.init 167772160 16).addUsedRange 167772160 24
        ).addUsedRange 167772416 24).used = [(167772160, 167772671)] :=
  C7_merge_invariant (IPAllocator.init 167772160 16) 167772160 24
    (by intro r hr; simp [IPAllocator.init] at hr)

/-! ### Pointwise coverage of the used-range set -/

/-- An address `x` is covered by (some range of) the list `l`. -/
def covers (l : List (Int × Int)) (x : Int) : Prop :=
  ∃ r ∈ l, r.1 ≤ x ∧ x ≤ r.2

theorem covers_cons {r : Int × Int} {l : List (Int × Int)} {x : Int} :
    covers (r :: l) x ↔ (r.1 ≤ x ∧ x ≤ r.2) ∨ covers l x := by
  unfold covers
  simp [List.mem_cons, or_and_right, exists_or]

theorem covers_of_perm {l1 l2 : List (Int × Int)} (h : List.Perm l1 l2)
    (x : Int) : covers l1 x ↔ covers l2 x := by
  unfold covers
  constructor <;> rintro ⟨r, hr, hx⟩
  · exact ⟨r, h.mem_iff.mp hr, hx⟩
  · exact ⟨r, h.mem_iff.mpr hr, hx⟩

/-- Weakening the head of a start-ordered chain. -/
theorem chain_fst_weaken {s e v : Int} {cur : Int × Int}
    {rest : List (Int × Int)}
    (h : List.Chain (fun a b : Int × Int => a.1 ≤ b.1) (s, e) rest)
    (hle : cur.1 ≤ s) :
    List.Chain (fun a b : Int × Int => a.1 ≤ b.1) (cur.1, v) rest := by
  cases rest with
  | nil => exact List.Chain.nil
  | cons z t =>
    rw [List.chain_cons] at h ⊢
    exact ⟨le_trans hle h.1, h.2⟩

/-- A sorted list is a start-ordered chain. -/
theorem pairwise_lexLe_chain {y : Int × Int} {ys : List (Int × Int)}
    (h : (y :: ys).Pairwise LexLe) :
    List.Chain (fun a b : Int × Int => a.1 ≤ b.1) y ys := by
  have h6 : (y :: ys).Chain' (fun a b : Int × Int => a.1 ≤ b.1) := by
    apply List.Pairwise.chain'
    exact h.imp (fun hab => by unfold LexLe at hab; omega)
  exact h6

/-- The merge pass does not change which addresses are covered, for any
start-ordered input. -/
theorem mergeAux_covers :
    ∀ (l : List (Int × Int)) (cur : Int × Int) (x : Int),
      List.Chain (fun a b : Int × Int => a.1 ≤ b.1) cur l →
      (covers (mergeAux cur l) x ↔ covers (cur :: l) x) := by
  intro l
  induction l with
  | nil => intro cur x _; exact Iff.rfl
  | cons se rest ih =>
    intro cur x h3
    obtain ⟨s, e⟩ := se
    rw [List.chain_cons] at h3
    rw [show mergeAux cur ((s, e) :: rest)
          = if cur.2 + 1 ≥ s then mergeAux (cur.1, max cur.2 e) rest
            else cur :: mergeAux (s, e) rest from rfl]
    split_ifs with hc
    · have hch := chain_fst_weaken (v := max cur.2 e) h3.2 h3.1
      rw [ih (cur.1, max cur.2 e) x hch]
      rw [covers_cons, covers_cons, covers_cons]
      constructor
      · rintro (⟨h4, h5⟩ | h4)
        · simp only [] at h4 h5
          by_cases hx2 : x ≤ cur.2
          · exact Or.inl ⟨h4, hx2⟩
          · refine Or.inr (Or.inl ⟨by omega, by omega⟩)
        · exact Or.inr (Or.inr h4)
      · rintro (⟨h4, h5⟩ | ⟨h4, h5⟩ | h4)
        · exact Or.inl ⟨h4, by simp only []; omega⟩
        · refine Or.inl ⟨?_, ?_⟩ <;> simp only [] <;>
            [exact le_trans h3.1 h4; omega]
        · exact Or.inr h4
    · rw [covers_cons, covers_cons, ih (s, e) x h3.2, covers_cons]

/-- `_merge_ranges` does not change which addresses are covered. -/
theorem mergeRanges_covers (l : List (Int × Int)) (x : Int) :
    covers (mergeRanges l) x ↔ covers l x := by
  unfold mergeRanges
  cases hp : pysort l with
  | nil =>
    have hperm := pysort_perm l
    rw [hp] at hperm
    have hnil : l = [] := hperm.symm.eq_nil
    subst hnil
    exact Iff.rfl
  | cons y ys =>
    have hperm := pysort_perm l
    rw [hp] at hperm
    have hsort := pysort_sorted l
    rw [hp] at hsort
    rw [mergeAux_covers ys y x (pairwise_lexLe_chain hsort)]
    exact covers_of_perm hperm x

/-- `add_used_range` covers exactly the old addresses plus the new
CIDR's range. -/
theorem addUsedRange_covers (al : IPAllocator) (a : Int) (p : Nat)
    (x : Int) :
    covers ((al.addUsedRange a p).used) x ↔
      ((cidrRange a p).1 ≤ x ∧ x ≤ (cidrRange a p).2) ∨ covers al.used x := by
  show covers (mergeRanges (insort (cidrRange a p) al.used)) x ↔ _
  rw [mergeRanges_covers, covers_of_perm (insort_perm _ _), covers_cons]

/-! ### Uniqueness of the merged normal form -/

/-- In a merged list, nothing below the head's start is covered. -/
theorem covers_head_lb {x : Int × Int} {t : List (Int × Int)} {z : Int}
    (hm : Merged (x :: t)) (hc : covers (x :: t) z) : x.1 ≤ z := by
  obtain ⟨r, hr, h1, h2⟩ := hc
  rcases List.mem_cons.mp hr with rfl | hr
  · exact h1
  · have hx2 := hm.1 x (by simp)
    have := List.rel_of_pairwise_cons hm.2 hr
    omega

/-- In a merged list, the address just past the head's end is not
covered. -/
theorem covers_head_gap {x : Int × Int} {t : List (Int × Int)}
    (hm : Merged (x :: t)) : ¬ covers (x :: t) (x.2 + 1) := by
  rintro ⟨r, hr, h1, h2⟩
  rcases List.mem_cons.mp hr with rfl | hr
  · omega
  · have := List.rel_of_pairwise_cons hm.2 hr
    omega

/-- In a merged list, the tail covers exactly the covered addresses past
the head's end. -/
theorem covers_tail_iff {x : Int × Int} {t : List (Int × Int)} {z : Int}
    (hm : Merged (x :: t)) :
    covers t z ↔ covers (x :: t) z ∧ x.2 < z := by
  constructor
  · rintro ⟨r, hr, h1, h2⟩
    have := List.rel_of_pairwise_cons hm.2 hr
    exact ⟨⟨r, by simp [hr], h1, h2⟩, by omega⟩
  · rintro ⟨⟨r, hr, h1, h2⟩, hz⟩
    rcases List.mem_cons.mp hr with rfl | hr
    · omega
    · exact ⟨r, hr, h1, h2⟩

theorem Merged.tail {x : Int × Int} {t : List (Int × Int)}
    (hm : Merged (x :: t)) : Merged t :=
  ⟨fun r hr => hm.1 r (by simp [hr]), (List.pairwise_cons.mp hm.2).2⟩

/-- Two merged lists covering the same addresses are identical: the
merged used-range set is a canonical form of its coverage. -/
theorem merged_unique : ∀ l1 l2 : List (Int × Int), Merged l1 → Merged l2 →
    (∀ x : Int, covers l1 x ↔ covers l2 x) → l1 = l2 := by
  intro l1
  induction l1 with
  | nil =>
    intro l2 _ h2 hcov
    cases l2 with
    | nil => rfl
    | cons y t =>
      exfalso
      have hy : covers (y :: t) y.1 :=
        ⟨y, by simp, le_refl _, h2.1 y (by simp)⟩
      obtain ⟨r, hr, _⟩ := (hcov y.1).mpr hy
      simp at hr
  | cons x t1 ih =>
    intro l2 h1 h2 hcov
    cases l2 with
    | nil =>
      exfalso
      have hx : covers (x :: t1) x.1 :=
        ⟨x, by simp, le_refl _, h1.1 x (by simp)⟩
      obtain ⟨r, hr, _⟩ := (hcov x.1).mp hx
      simp at hr
    | cons y t2 =>
      have hx : covers (x :: t1) x.1 :=
        ⟨x, by simp, le_refl _, h1.1 x (by simp)⟩
      have hy : covers (y :: t2) y.1 :=
        ⟨y, by simp, le_refl _, h2.1 y (by simp)⟩
      have hs1 : y.1 ≤ x.1 := covers_head_lb h2 ((hcov x.1).mp hx)
      have hs2 : x.1 ≤ y.1 := covers_head_lb h1 ((hcov y.1).mpr hy)
      have hstart : x.1 = y.1 := le_antisymm hs2 hs1
      have hend : x.2 = y.2 := by
        rcases lt_trichotomy x.2 y.2 with hlt | heq | hgt
        · exfalso
          apply covers_head_gap h1
          refine (hcov (x.2 + 1)).mpr ⟨y, by simp, ?_, by omega⟩
          have := h1.1 x (by simp)
          omega
        · exact heq
        · exfalso
          apply covers_head_gap h2
          refine (hcov (y.2 + 1)).mp ⟨x, by simp, ?_, by omega⟩
          have := h2.1 y (by simp)
          omega
      have hxy : x = y := Prod.ext hstart hend
      subst hxy
      have htcov : ∀ z : Int, covers t1 z ↔ covers t2 z := by
        intro z
        rw [covers_tail_iff h1, covers_tail_iff h2, hcov z, hend]
      rw [ih t2 h1.tail h2.tail htcov]

/-! ### Adding a set of CIDRs: order independence and idempotence -/

/-- Fold `add_used_range` over a list of CIDRs `(address, prefix)`. -/
def addAll (al : IPAllocator) : List (Int × Nat) → IPAllocator
  | [] => al
  | c :: cs => addAll (al.addUsedRange c.1 c.2) cs

theorem addAll_parent : ∀ (cs : List (Int × Nat)) (al : IPAllocator),
    (addAll al cs).parentStart = al.parentStart ∧
    (addAll al cs).parentEnd = al.parentEnd := by
  intro cs
  induction cs with
  | nil => intro al; exact ⟨rfl, rfl⟩
  | cons c t ih => intro al; exact ih (al.addUsedRange c.1 c.2)

theorem addAll_proper : ∀ (cs : List (Int × Nat)) (al : IPAllocator),
    (∀ r ∈ al.used, r.1 ≤ r.2) →
    ∀ r ∈ (addAll al cs).used, r.1 ≤ r.2 := by
  intro cs
  induction cs with
  | nil => intro al h; exact h
  | cons c t ih =>
    intro al h
    exact ih (al.addUsedRange c.1 c.2) (addUsedRange_merged al c.1 c.2 h).1

theorem addAll_merged : ∀ (cs : List (Int × Nat)) (al : IPAllocator),
    Merged al.used → Merged (addAll al cs).used := by
  intro cs
  induction cs with
  | nil => intro al h; exact h
  | cons c t ih =>
    intro al h
    exact ih (al.addUsedRange c.1 c.2) (addUsedRange_merged al c.1 c.2 h.1)

theorem addAll_covers : ∀ (cs : List (Int × Nat)) (al : IPAllocator)
    (x : Int),
    covers (addAll al cs).used x ↔
      covers al.used x ∨
        ∃ c ∈ cs, (cidrRange c.1 c.2).1 ≤ x ∧ x ≤ (cidrRange c.1 c.2).2 := by
  intro cs
  induction cs with
  | nil => intro al x; simp [addAll]
  | cons c t ih =>
    intro al x
    rw [show addAll al (c :: t) = addAll (al.addUsedRange c.1 c.2) t
        from rfl]
    rw [ih (al.addUsedRange c.1 c.2) x, addUsedRange_covers]
    simp [List.mem_cons, or_and_right, exists_or]
    tauto

/-- C8: `add_used_range` is order-independent and idempotent: starting
from an empty allocator, adding the same finite set of CIDRs in any
order yields the same final merged used-range set; and adding a CIDR
whose range is already fully covered by one existing merged range leaves
the used-range set unchanged (stated for any allocator satisfying the
merged invariant, which every reachable allocator does). -/
theorem C8_order_independent_idempotent :
    (∀ (pa : Int) (pp : Nat) (l1 l2 : List (Int × Nat)),
      List.Perm l1 l2 →
      (addAll (IPAllocator.init pa pp) l1).used
        = (addAll (IPAllocator.init pa pp) l2).used) ∧
    (∀ (al : IPAllocator) (a : Int) (p : Nat),
      Merged al.used →
      (∃ u ∈ al.used, u.1 ≤ (cidrRange a p).1 ∧ (cidrRange a p).2 ≤ u.2) →
      (al.addUsedRange a p).used = al.used) := by
  constructor
  · intro pa pp l1 l2 hperm
    have hminit : Merged (IPAllocator.init pa pp).used := by
      constructor
      · intro r hr
        simp [IPAllocator.init] at hr
      · exact List.Pairwise.nil
    apply merged_unique _ _ (addAll_merged l1 _ hminit)
      (addAll_merged l2 _ hminit)
    intro x
    rw [addAll_covers, addAll_covers]
    apply or_congr Iff.rfl
    constructor <;> rintro ⟨c, hc, h⟩
    · exact ⟨c, hperm.mem_iff.mp hc, h⟩
    · exact ⟨c, hperm.mem_iff.mpr hc, h⟩
  · intro al a p hm hcovd
    apply merged_unique
    · exact addUsedRange_merged al a p hm.1
    · exact hm
    · intro x
      rw [addUsedRange_covers]
      constructor
      · rintro (⟨h1, h2⟩ | h)
        · obtain ⟨u, hu, hu1, hu2⟩ := hcovd
          exact ⟨u, hu, by omega, by omega⟩
        · exact h
      · exact Or.inr

/-! ### Gaps of a merged list are free and bounded -/

/-- The last range of a merged list has the maximal end. -/
theorem lastOf_end_max : ∀ (l : List (Int × Int)) (x : Int × Int),
    Merged (x :: l) → ∀ u ∈ x :: l, u.2 ≤ (lastOf x l).2 := by
  intro l
  induction l with
  | nil =>
    intro x _ u hu
    simp at hu
    subst hu
    exact le_refl _
  | cons y t ih =>
    intro x hm u hu
    rw [show lastOf x (y :: t) = lastOf y t from rfl]
    rcases List.mem_cons.mp hu with rfl | hu
    · have h1 := List.rel_of_pairwise_cons hm.2 (List.mem_cons_self y t)
      have h2 := ih y hm.tail y (by simp)
      have hy := hm.1 y (by simp)
      omega
    · exact ih y hm.tail u hu

/-- A between-gap of a merged list is disjoint from every range of the
list, and starts past the end of the list's first range. -/
theorem betweenGaps_disjoint (req : Int) :
    ∀ l : List (Int × Int), Merged l →
      ∀ g ∈ betweenGaps req l,
        (∀ u ∈ l, g.2.1 < u.1 ∨ u.2 < g.1) ∧
        (∀ h0 t0, l = h0 :: t0 → h0.2 < g.1) := by
  intro l
  induction l with
  | nil => intro _ g hg; simp [betweenGaps] at hg
  | cons x l2 ih =>
    intro hm g hg
    cases l2 with
    | nil => simp [betweenGaps] at hg
    | cons y t =>
      rw [show betweenGaps req (x :: y :: t)
            = qualGap req (x.2 + 1) (y.1 - 1) ++ betweenGaps req (y :: t)
          from rfl, List.mem_append] at hg
      have hxy := List.rel_of_pairwise_cons hm.2 (List.mem_cons_self y t)
      have hyy := hm.1 y (by simp)
      rcases hg with hg | hg
      · obtain ⟨hge, _⟩ := qualGap_mem hg
        subst hge
        refine ⟨?_, ?_⟩
        · intro u hu
          rcases List.mem_cons.mp hu with rfl | hu
          · right; show u.2 < u.2 + 1; omega
          · rcases List.mem_cons.mp hu with rfl | hu
            · left; show u.1 - 1 < u.1; omega
            · left
              show y.1 - 1 < u.1
              have := List.rel_of_pairwise_cons hm.tail.2 hu
              omega
        · intro h0 t0 he
          injection he with he1 _
          subst he1
          show x.2 < x.2 + 1
          omega
      · obtain ⟨hd, hh⟩ := ih hm.tail g hg
        have hyg : y.2 < g.1 := hh y t rfl
        refine ⟨?_, ?_⟩
        · intro u hu
          rcases List.mem_cons.mp hu with rfl | hu
          · right; omega
          · exact hd u hu
        · intro h0 t0 he
          injection he with he1 _
          subst he1
          omega

/-- Every candidate gap of a merged used-range list is disjoint from
every used range. -/
theorem gapsFor_disjoint (ps pe req : Int) (used : List (Int × Int))
    (hm : Merged used) :
    ∀ g ∈ gapsFor ps pe req used, ∀ u ∈ used, g.2.1 < u.1 ∨ u.2 < g.1 := by
  intro g hg u hu
  cases used with
  | nil => simp at hu
  | cons f rest =>
    obtain ⟨f1, f2⟩ := f
    simp only [gapsFor, List.mem_append] at hg
    have hf := hm.1 (f1, f2) (by simp)
    rcases hg with (hg | hg) | hg
    · split_ifs at hg with hc
      · obtain ⟨hge, _⟩ := qualGap_mem hg
        subst hge
        left
        show min pe (f1 - 1) < u.1
        rcases List.mem_cons.mp hu with rfl | hu
        · show min pe (f1 - 1) < f1; omega
        · have := List.rel_of_pairwise_cons hm.2 hu
          have hmin : min pe (f1 - 1) ≤ f1 - 1 := min_le_right _ _
          omega
      · simp at hg
    · exact (betweenGaps_disjoint req ((f1, f2) :: rest) hm g hg).1 u hu
    · split_ifs at hg with hc
      · obtain ⟨hge, _⟩ := qualGap_mem hg
        subst hge
        right
        show u.2 < (lastOf (f1, f2) rest).2 + 1
        have := lastOf_end_max rest (f1, f2) hm u hu
        omega
      · simp at hg

/-- Between-gap bounds. -/
theorem betweenGaps_bounded (req : Int) :
    ∀ l : List (Int × Int),
      (∀ u ∈ l, 0 ≤ u.1 ∧ u.2 < 2 ^ 32) → (∀ u ∈ l, u.1 ≤ u.2) →
      ∀ g ∈ betweenGaps req l, 0 ≤ g.1 ∧ g.2.1 < 2 ^ 32 := by
  intro l
  induction l with
  | nil => intro _ _ g hg; simp [betweenGaps] at hg
  | cons x l2 ih =>
    intro hb hp g hg
    cases l2 with
    | nil => simp [betweenGaps] at hg
    | cons y t =>
      rw [show betweenGaps req (x :: y :: t)
            = qualGap req (x.2 + 1) (y.1 - 1) ++ betweenGaps req (y :: t)
          from rfl, List.mem_append] at hg
      rcases hg with hg | hg
      · obtain ⟨hge, _⟩ := qualGap_mem hg
        subst hge
        have hbx := hb x (by simp)
        have hpx := hp x (by simp)
        have hby := hb y (by simp)
        have hpy := hp y (by simp)
        refine ⟨?_, ?_⟩
        · show 0 ≤ x.2 + 1; omega
        · show y.1 - 1 < 2 ^ 32; omega
      · exact ih (fun u hu => hb u (by simp [hu]))
          (fun u hu => hp u (by simp [hu])) g hg

/-- Every candidate gap lies within the 32-bit address space when the
parent and the used ranges do. -/
theorem gapsFor_bounded (ps pe req : Int) (used : List (Int × Int))
    (hps : 0 ≤ ps) (hpe : pe < 2 ^ 32)
    (hb : ∀ u ∈ used, 0 ≤ u.1 ∧ u.2 < 2 ^ 32)
    (hp : ∀ u ∈ used, u.1 ≤ u.2) :
    ∀ g ∈ gapsFor ps pe req used, 0 ≤ g.1 ∧ g.2.1 < 2 ^ 32 := by
  intro g hg
  cases used with
  | nil =>
    simp only [gapsFor] at hg
    obtain ⟨hge, _⟩ := qualGap_mem hg
    subst hge
    exact ⟨hps, hpe⟩
  | cons f rest =>
    obtain ⟨f1, f2⟩ := f
    simp only [gapsFor, List.mem_append] at hg
    rcases hg with (hg | hg) | hg
    · split_ifs at hg with hc
      · obtain ⟨hge, _⟩ := qualGap_mem hg
        subst hge
        refine ⟨hps, ?_⟩
        show min pe (f1 - 1) < 2 ^ 32
        have : min pe (f1 - 1) ≤ pe := min_le_left _ _
        omega
      · simp at hg
    · exact betweenGaps_bounded req ((f1, f2) :: rest) hb hp g hg
    · split_ifs at hg with hc
      · obtain ⟨hge, _⟩ := qualGap_mem hg
        subst hge
        have hl := lastOf_mem rest (f1, f2)
        have h1 := hb _ hl
        have h2 := hp _ hl
        refine ⟨?_, hpe⟩
        show 0 ≤ (lastOf (f1, f2) rest).2 + 1
        omega
      · simp at hg

/-! ### Success step of `find_best_fit` -/

theorem netmask_cast (p : Nat) :
    ((netmask p : Nat) : Int) = 2 ^ 32 - 2 ^ (32 - p) := by
  have hle : (2 : Nat) ^ (32 - p) ≤ 2 ^ 32 :=
    Nat.pow_le_pow_right (by norm_num) (by omega)
  rw [netmask_eq, Nat.cast_sub hle]
  push_cast
  ring

theorem pyand_nonneg (x : Int) (m : Nat) : 0 ≤ pyand x m :=
  Int.natCast_nonneg _

theorem pyand_le (x : Int) (m : Nat) : pyand x m ≤ (m : Nat) := by
  unfold pyand
  exact_mod_cast Nat.and_le_right

/-- Every parsed CIDR range lies within the 32-bit address space. -/
theorem cidrRange_bounded (a : Int) (p : Nat) :
    0 ≤ (cidrRange a p).1 ∧ (cidrRange a p).2 < 2 ^ 32 := by
  refine ⟨pyand_nonneg a (netmask p), ?_⟩
  show pyand a (netmask p) + 2 ^ (32 - p) - 1 < 2 ^ 32
  have h1 : pyand a (netmask p) ≤ ((netmask p : Nat) : Int) :=
    pyand_le a (netmask p)
  rw [netmask_cast] at h1
  have h2 : (0 : Int) < 2 ^ (32 - p) := pow_pos (by norm_num) _
  omega

/-- In a merged list whose covered addresses are 32-bit, every stored
range is 32-bit. -/
theorem bounds_of_covers {l : List (Int × Int)} (hm : Merged l)
    (h : ∀ x : Int, covers l x → 0 ≤ x ∧ x < 2 ^ 32) :
    ∀ u ∈ l, 0 ≤ u.1 ∧ u.2 < 2 ^ 32 := by
  intro u hu
  have hp := hm.1 u hu
  have h1 := h u.1 ⟨u, hu, le_refl _, hp⟩
  have h2 := h u.2 ⟨u, hu, hp, le_refl _⟩
  exact ⟨h1.1, h2.2⟩

/-- What one successful `find_best_fit` call does, on a well-formed
state: the returned range avoids every used range, is 32-bit, and the
new state covers exactly the old addresses plus the returned range. -/
theorem findBestFit_step (al : IPAllocator) (p : Nat) (a : Int)
    (hm : Merged al.used)
    (hps : 0 ≤ al.parentStart) (hpe : al.parentEnd < 2 ^ 32)
    (hb : ∀ u ∈ al.used, 0 ≤ u.1 ∧ u.2 < 2 ^ 32)
    (h : (al.findBestFit p).1 = some a) :
    (∀ u ∈ al.used, a + requiredSize p - 1 < u.1 ∨ u.2 < a) ∧
    0 ≤ a ∧ a + requiredSize p - 1 < 2 ^ 32 ∧
    ∀ x : Int, covers (al.findBestFit p).2.used x ↔
      (a ≤ x ∧ x ≤ a + requiredSize p - 1) ∨ covers al.used x := by
  obtain ⟨g, gs, hg, ha⟩ := findBestFit_some_spec al p a h
  have hbounds := allocInGap_bounds p _ _ a ha
  have hdvd := allocInGap_dvd p _ _ a ha
  have hmem : minByWaste g gs ∈
      gapsFor al.parentStart al.parentEnd (requiredSize p) al.used := by
    rw [hg]; exact minByWaste_mem g gs
  have hdisj := gapsFor_disjoint al.parentStart al.parentEnd
    (requiredSize p) al.used hm _ hmem
  have hgb := gapsFor_bounded al.parentStart al.parentEnd
    (requiredSize p) al.used hps hpe hb hm.1 _ hmem
  have hreq1 : (0 : Int) < requiredSize p := pow_pos (by norm_num) _
  have h0a : 0 ≤ a := le_trans hgb.1 hbounds.1
  have ha32 : a + requiredSize p - 1 < 2 ^ 32 :=
    lt_of_le_of_lt hbounds.2 hgb.2
  refine ⟨?_, h0a, ha32, ?_⟩
  · intro u hu
    have := hdisj u hu
    omega
  · intro x
    have hupd := (findBestFit_cases al p).2.2 a h
    rw [hupd, addUsedRange_covers]
    have hcr : cidrRange a p = (a, a + requiredSize p - 1) := by
      show (pyand a (netmask p), pyand a (netmask p) + 2 ^ (32 - p) - 1) = _
      rw [pyand_netmask_of_aligned a p h0a (by omega) hdvd]
      rfl
    rw [hcr]

/-! ### Sequences of `find_best_fit` calls -/

/-- The integer range denoted by an allocated CIDR `(start, prefix)`. -/
def allocRange (c : Int × Nat) : Int × Int :=
  (c.1, c.1 + requiredSize c.2 - 1)

/-- Two integer ranges are disjoint. -/
def disjointR (r u : Int × Int) : Prop := r.2 < u.1 ∨ u.2 < r.1

/-- Run a sequence of `find_best_fit` calls, collecting the successful
allocations (as CIDRs `(start, prefix)`). -/
def runFinds (al : IPAllocator) : List Nat → List (Int × Nat)
  | [] => []
  | p :: ps =>
    match al.findBestFit p with
    | (some a, al2) => (a, p) :: runFinds al2 ps
    | (none, al2) => runFinds al2 ps

/-- The allocator state after a sequence of `find_best_fit` calls. -/
def runState (al : IPAllocator) : List Nat → IPAllocator
  | [] => al
  | p :: ps => runState (al.findBestFit p).2 ps

/-- A `find_best_fit` call preserves the well-formedness invariants. -/
theorem findBestFit_snd_inv (al : IPAllocator) (p : Nat)
    (hm : Merged al.used)
    (hb : ∀ u ∈ al.used, 0 ≤ u.1 ∧ u.2 < 2 ^ 32) :
    Merged (al.findBestFit p).2.used ∧
    (al.findBestFit p).2.parentStart = al.parentStart ∧
    (al.findBestFit p).2.parentEnd = al.parentEnd ∧
    ∀ u ∈ (al.findBestFit p).2.used, 0 ≤ u.1 ∧ u.2 < 2 ^ 32 := by
  cases hr : (al.findBestFit p).1 with
  | none =>
    have he := (findBestFit_cases al p).2.1 hr
    rw [he]
    exact ⟨hm, rfl, rfl, hb⟩
  | some a =>
    have he := (findBestFit_cases al p).2.2 a hr
    rw [he]
    refine ⟨addUsedRange_merged al a p hm.1, rfl, rfl, ?_⟩
    apply bounds_of_covers (addUsedRange_merged al a p hm.1)
    intro x hx
    rw [addUsedRange_covers] at hx
    rcases hx with ⟨h1, h2⟩ | hx
    · have h3 := cidrRange_bounded a p
      omega
    · obtain ⟨u, hu, hu1, hu2⟩ := hx
      have := hb u hu
      omega

theorem runState_inv : ∀ (ps : List Nat) (al : IPAllocator),
    Merged al.used → 0 ≤ al.parentStart → al.parentEnd < 2 ^ 32 →
    (∀ u ∈ al.used, 0 ≤ u.1 ∧ u.2 < 2 ^ 32) →
    Merged (runState al ps).used ∧ 0 ≤ (runState al ps).parentStart ∧
      (runState al ps).parentEnd < 2 ^ 32 ∧
      ∀ u ∈ (runState al ps).used, 0 ≤ u.1 ∧ u.2 < 2 ^ 32 := by
  intro ps
  induction ps with
  | nil => exact fun al a b c d => ⟨a, b, c, d⟩
  | cons p ps ih =>
    intro al hm hps hpe hb
    obtain ⟨hm2, hps2, hpe2, hb2⟩ := findBestFit_snd_inv al p hm hb
    exact ih (al.findBestFit p).2 hm2 (by rw [hps2]; exact hps)
      (by rw [hpe2]; exact hpe) hb2

/-- Core induction for C1: over any sequence of calls from a well-formed
state, the successful allocations are pairwise disjoint and each avoids
every address covered by the starting used-range set. -/
theorem runFinds_spec : ∀ (reqs : List Nat) (al : IPAllocator),
    Merged al.used → 0 ≤ al.parentStart → al.parentEnd < 2 ^ 32 →
    (∀ u ∈ al.used, 0 ≤ u.1 ∧ u.2 < 2 ^ 32) →
    List.Pairwise (fun c d => disjointR (allocRange c) (allocRange d))
      (runFinds al reqs) ∧
    ∀ c ∈ runFinds al reqs, ∀ x : Int,
      (allocRange c).1 ≤ x → x ≤ (allocRange c).2 → ¬ covers al.used x := by
  intro reqs
  induction reqs with
  | nil => intro al _ _ _ _; exact ⟨List.Pairwise.nil, by simp [runFinds]⟩
  | cons p ps ih =>
    intro al hm hps hpe hb
    rcases hfb : al.findBestFit p with ⟨r, al2⟩
    cases r with
    | none =>
      have h1 : (al.findBestFit p).1 = none := by rw [hfb]
      have h2 : al2 = al := by
        have h3 := (findBestFit_cases al p).2.1 h1
        rw [hfb] at h3
        exact h3
      rw [show runFinds al (p :: ps) = runFinds al2 ps from by
        rw [runFinds, hfb]]
      rw [h2]
      exact ih al hm hps hpe hb
    | some a =>
      have h1 : (al.findBestFit p).1 = some a := by rw [hfb]
      obtain ⟨hdisj, h0a, ha32, hcov⟩ :=
        findBestFit_step al p a hm hps hpe hb h1
      have hal2 : al2 = (al.findBestFit p).2 := by rw [hfb]
      have hal2e : al2 = al.addUsedRange a p := by
        rw [hal2]; exact (findBestFit_cases al p).2.2 a h1
      have hm2 : Merged al2.used := by
        rw [hal2e]; exact addUsedRange_merged al a p hm.1
      have hps2 : 0 ≤ al2.parentStart := by rw [hal2e]; exact hps
      have hpe2 : al2.parentEnd < 2 ^ 32 := by rw [hal2e]; exact hpe
      have hcov2 : ∀ x : Int, covers al2.used x ↔
          (a ≤ x ∧ x ≤ a + requiredSize p - 1) ∨ covers al.used x := by
        intro x; rw [hal2]; exact hcov x
      have hb2 : ∀ u ∈ al2.used, 0 ≤ u.1 ∧ u.2 < 2 ^ 32 := by
        apply bounds_of_covers hm2
        intro x hx
        rcases (hcov2 x).mp hx with ⟨hx1, hx2⟩ | hx
        · omega
        · obtain ⟨u, hu, hu1, hu2⟩ := hx
          have := hb u hu
          omega
      obtain ⟨ihp, ihd⟩ := ih al2 hm2 hps2 hpe2 hb2
      rw [show runFinds al (p :: ps) = (a, p) :: runFinds al2 ps from by
        rw [runFinds, hfb]]
      have hreq1 : (0 : Int) < requiredSize p := pow_pos (by norm_num) _
      constructor
      · refine List.pairwise_cons.mpr ⟨?_, ihp⟩
        intro d hd
        by_contra hnd
        simp only [disjointR, allocRange] at hnd
        push_neg at hnd
        have hreqd : (0 : Int) < requiredSize d.2 := pow_pos (by norm_num) _
        rcases le_total a d.1 with hle | hle
        · exact ihd d hd d.1 (le_refl _)
            (by simp only [allocRange]; omega)
            ((hcov2 d.1).mpr (Or.inl ⟨hle, by omega⟩))
        · exact ihd d hd a (by simpa only [allocRange] using hle)
            (by simp only [allocRange]; omega)
            ((hcov2 a).mpr (Or.inl ⟨le_refl a, by omega⟩))
      · intro c hc x hx1 hx2
        rcases List.mem_cons.mp hc with rfl | hc
        · intro hcontra
          obtain ⟨u, hu, hu1, hu2⟩ := hcontra
          have := hdisj u hu
          simp only [allocRange] at hx1 hx2
          omega
        · intro hcontra
          exact ihd c hc x hx1 hx2 ((hcov2 x).mpr (Or.inr hcontra))

/-- C1: for every allocator instance (parent CIDR plus a used-range set
built only by `add_used_range` calls) and every sequence of
`find_best_fit` calls against it, the integer ranges of the successful
allocations are pairwise non-overlapping; each is disjoint from every
used range of the starting set; and each is disjoint from every used
range present in the allocator immediately before its own call (after
any earlier calls `pre`). -/
theorem C1_no_overlap (pa : Int) (pp : Nat) (adds : List (Int × Nat))
    (reqs : List Nat) :
    List.Pairwise (fun c d => disjointR (allocRange c) (allocRange d))
      (runFinds (addAll (IPAllocator.init pa pp) adds) reqs) ∧
    (∀ c ∈ runFinds (addAll (IPAllocator.init pa pp) adds) reqs,
      ∀ u ∈ (addAll (IPAllocator.init pa pp) adds).used,
        disjointR (allocRange c) u) ∧
    ∀ (pre : List Nat) (p : Nat) (a : Int),
      ((runState (addAll (IPAllocator.init pa pp) adds) pre
          ).findBestFit p).1 = some a →
      ∀ u ∈ (runState (addAll (IPAllocator.init pa pp) adds) pre).used,
        disjointR (a, a + requiredSize p - 1) u := by
  have hminit : Merged (IPAllocator.init pa pp).used := by
    constructor
    · intro r hr; simp [IPAllocator.init] at hr
    · exact List.Pairwise.nil
  have hm := addAll_merged adds _ hminit
  have hpar := addAll_parent adds (IPAllocator.init pa pp)
  have hps : 0 ≤ (addAll (IPAllocator.init pa pp) adds).parentStart := by
    rw [hpar.1]; exact (cidrRange_bounded pa pp).1
  have hpe : (addAll (IPAllocator.init pa pp) adds).parentEnd < 2 ^ 32 := by
    rw [hpar.2]; exact (cidrRange_bounded pa pp).2
  have hbd : ∀ u ∈ (addAll (IPAllocator.init pa pp) adds).used,
      0 ≤ u.1 ∧ u.2 < 2 ^ 32 := by
    apply bounds_of_covers hm
    intro x hx
    rw [addAll_covers] at hx
    rcases hx with hx | ⟨c, hc, h1, h2⟩
    · exfalso
      obtain ⟨r, hr, _⟩ := hx
      simp [IPAllocator.init] at hr
    · have := cidrRange_bounded c.1 c.2
      omega
  obtain ⟨h1, h2⟩ := runFinds_spec reqs _ hm hps hpe hbd
  refine ⟨h1, ?_, ?_⟩
  · intro c hc u hu
    have hpt := h2 c hc
    have hproper := hm.1 u hu
    have hreqc : (0 : Int) < requiredSize c.2 := pow_pos (by norm_num) _
    by_contra hnd
    unfold disjointR at hnd
    push_neg at hnd
    rcases le_total (allocRange c).1 u.1 with hle | hle
    · exact hpt u.1 hle hnd.1 ⟨u, hu, le_refl _, hproper⟩
    · exact hpt (allocRange c).1 (le_refl _)
        (by simp only [allocRange]; omega) ⟨u, hu, hle, hnd.2⟩
  · intro pre p a hsome u hu
    obtain ⟨hm3, hps3, hpe3, hb3⟩ := runState_inv pre _ hm hps hpe hbd
    have := (findBestFit_step _ p a hm3 hps3 hpe3 hb3 hsome).1 u hu
    unfold disjointR
    omega

/-- Witness for C1's per-call disjointness at a concrete input: after
one `/24` allocation out of `10.0.0.0/16`, the next `/24` allocation
`10.0.192.0/24` is disjoint from the used range recorded by the
first call. -/
theorem C1_witness :
    disjointR ((167821312 : Int), 167821312 + requiredSize 24 - 1)
      (167804928, 167805183) :=
  (C1_no_overlap 167772160 16 [] []).2.2 [24] 24 167821312 (by decide)
    (167804928, 167805183) (by decide)

/-- Witness for C8 at concrete inputs: adding `10.0.0.0/24` and
`10.0.1.0/24` in either order yields the same used-range set, and
re-adding the covered `10.0.0.0/25` changes nothing. -/
theorem C8_witness :
    (addAll (IPAllocator.init 167772160 16)
        [(167772160, 24), (167772416, 24)]).used
      = (addAll (IPAllocator.init 167772160 16)
          [(167772416, 24), (167772160, 24)]).used ∧
    (((IPAllocator.init 167772160 16).addUsedRange 167772160 24
        ).addUsedRange 167772160 25).used
      = ((IPAllocator.init 167772160 16).addUsedRange 167772160 24).used :=
  ⟨C8_order_independent_idempotent.1 167772160 16 _ _
      (List.Perm.swap (167772416, 24) (167772160, 24) []),
    C8_order_independent_idempotent.2
      ((IPAllocator.init 167772160 16).addUsedRange 167772160 24)
      167772160 25 ⟨by decide, by decide⟩
      ⟨(167772160, 167772415), by decide⟩⟩

/-- C10: `find_best_fit` signals lack of space as an absent value rather
than an exception: when no gap qualifies (the candidate list is empty)
the result is absent; whenever the result is absent — no qualifying gap,
or the alignment/snap validation failed — the used-range set is exactly
unchanged; and only a successful call mutates the allocator, doing so via
`add_used_range` on the returned CIDR. -/
theorem C10_failure_is_absence_and_pure (al : IPAllocator) (p : Nat) :
    (gapsFor al.parentStart al.parentEnd (requiredSize p) al.used = [] →
      (al.findBestFit p).1 = none) ∧
    ((al.findBestFit p).1 = none → (al.findBestFit p).2 = al) ∧
    (∀ a : Int, (al.findBestFit p).1 = some a →
      (al.findBestFit p).2 = al.addUsedRange a p) :=
  findBestFit_cases al p

/-- Witness for C10 at a concrete input: `find_best_fit(15)` against an
empty `10.0.0.0/16` allocator fails, and the theorem yields that the
allocator is unchanged. -/
theorem C10_witness :
    ((IPAllocator.init 167772160 16).findBestFit 15).2 =
      IPAllocator.init 167772160 16 :=
  (C10_failure_is_absence_and_pure (IPAllocator.init 167772160 16) 15).2.1
    (by decide)

end Ipam
